import Mathlib

/-!
# Verification of the cplxviz numerical core

Shallow embedding of the numerical and rasterization engine of the
`cplxviz` repository (complex arithmetic kernel, root/coefficient
conversion, Durand–Kerner root finding, domain-coloring rasterizer),
with theorems settling the specification claims.

Modelling conventions:
* JavaScript `number` (IEEE float64) components are embedded as exact
  rationals `ℚ`.  All the structural claims verified here (dispatch,
  list lengths, seeding, recurrences, snapping) depend only on the
  field operations and order comparisons, which ℚ models exactly.
* `Math.sqrt` has no exact rational counterpart, so wherever the source
  only *compares* a magnitude against a nonnegative tolerance
  (`magnitude(delta) < tol`, with `maxDelta` a maximum of magnitudes)
  the embedding carries the squared magnitude and compares against the
  squared tolerance; `Real.sqrt` is strictly monotone on nonnegative
  inputs and `max (sqrt a) (sqrt b) = sqrt (max a b)`, so the branch
  taken is the same.
* IEEE division by a zero denominator (which in JavaScript silently
  yields `NaN`/`±Infinity` rather than throwing) is modelled separately
  for the error-handling claim by `FVal`/`fdiv` below; the ℚ-valued
  `divide` is used for the structural claims, where the denominator is
  never consulted at zero.
-/

namespace Cplxviz

/-- Structure `ComplexPoint` from `src/types/index.ts`: `{ re: number; im: number }`,
components embedded as exact rationals. -/
structure ComplexPoint where
  re : ℚ
  im : ℚ
  deriving DecidableEq, Repr

/-- The zero complex value `{re: 0, im: 0}`. -/
def czero : ComplexPoint := ⟨0, 0⟩

/-- The unit complex value `{re: 1, im: 0}`. -/
def cone : ComplexPoint := ⟨1, 0⟩

/-- Function `add` from `src/math/complex.ts`. -/
def add (a b : ComplexPoint) : ComplexPoint :=
  ⟨a.re + b.re, a.im + b.im⟩

/-- Function `subtract` from `src/math/complex.ts`. -/
def subtract (a b : ComplexPoint) : ComplexPoint :=
  ⟨a.re - b.re, a.im - b.im⟩

/-- Function `multiply` from `src/math/complex.ts`. -/
def multiply (a b : ComplexPoint) : ComplexPoint :=
  ⟨a.re * b.re - a.im * b.im, a.re * b.im + a.im * b.re⟩

/-- Function `divide` from `src/math/complex.ts`, over exact rationals.
In Lean, `x / 0 = 0`; the JavaScript source instead produces
`NaN`/`Infinity` components.  The IEEE behaviour at a zero denominator
is modelled exactly by `divideF` below. -/
def divide (a b : ComplexPoint) : ComplexPoint :=
  let denom := b.re * b.re + b.im * b.im
  ⟨(a.re * b.re + a.im * b.im) / denom, (a.im * b.re - a.re * b.im) / denom⟩

/-- Squared magnitude: the square of `magnitude` from `src/math/complex.ts`
(`Math.sqrt(z.re * z.re + z.im * z.im)`), used for exact tolerance
comparisons (see the file header). -/
def magnitudeSq (z : ComplexPoint) : ℚ :=
  z.re * z.re + z.im * z.im

/-- Function `evaluatePolynomial` from `src/math/complex.ts`: Horner evaluation,
coefficients ascending, starting from `{0,0}` and folding
`result = result*z + coeff[i]` from the highest index down. -/
def evaluatePolynomial (coeffs : List ComplexPoint) (z : ComplexPoint) : ComplexPoint :=
  coeffs.foldr (fun c result => add (multiply result z) c) czero

/-- Structure `Polynomial` from `src/types/index.ts` (the display-only `variable`
string field is omitted: `variable` is a Lean keyword and no claim
mentions it). -/
structure Polynomial where
  coefficients : List ComplexPoint
  degree : ℕ
  deriving DecidableEq, Repr

/-- Structure `RootFindingResult` from `src/types/index.ts`. -/
structure RootFindingResult where
  roots : List ComplexPoint
  converged : Bool
  deriving DecidableEq, Repr

/-! ## Coefficient ↔ root conversion (`src/math/polynomial.ts`, lines 384–412) -/

/-- One pass of the loop body of `rootsToCoefficients`: multiply the
accumulator polynomial `coeffs` by `(z - root)`.  Mirrors the pushes:
`newCoeffs[0] = multiply(negRoot, coeffs[0])`,
`newCoeffs[i] = add(coeffs[i-1], multiply(negRoot, coeffs[i]))` for
`1 ≤ i < coeffs.length`, and finally `coeffs[coeffs.length - 1]`.
The accumulator is never empty in the source (it starts as
`[leadingCoeff]`), so the `getD` defaults are never consulted. -/
def mulByLinear (root : ComplexPoint) (coeffs : List ComplexPoint) : List ComplexPoint :=
  let negRoot : ComplexPoint := ⟨-root.re, -root.im⟩
  multiply negRoot (coeffs.getD 0 czero) ::
    ((List.range (coeffs.length - 1)).map fun j =>
      add (coeffs.getD j czero) (multiply negRoot (coeffs.getD (j + 1) czero)))
    ++ [coeffs.getD (coeffs.length - 1) czero]

/-- Function `rootsToCoefficients` from `src/math/polynomial.ts`: start from the
one-element accumulator `[leadingCoeff]` and multiply by `(z - root)`
for each root in sequence order. -/
def rootsToCoefficients (roots : List ComplexPoint)
    (leadingCoeff : ComplexPoint := cone) : List ComplexPoint :=
  roots.foldl (fun coeffs root => mulByLinear root coeffs) [leadingCoeff]

/-! ## Durand–Kerner iteration (`src/math/polynomial.ts`, lines 447–497) -/

/-- The fixed seed `{re: 0.4, im: 0.9}`. -/
def seedC : ComplexPoint := ⟨2/5, 9/10⟩

/-- Seeded guess number `k`: `roots[0] = {1,0}`,
`roots[k] = multiply(roots[k-1], seed)`. -/
def seedPow : ℕ → ComplexPoint
  | 0 => cone
  | k + 1 => multiply (seedPow k) seedC

/-- The initial guess list of `durandKerner`: the source pushes `{1,0}`
and then `roots[k-1] * seed` for `k = 1 .. degree-1`, so the list has
`max 1 degree` elements (one element even for degree 0, where the loop
body is empty). -/
def seedGuesses (degree : ℕ) : List ComplexPoint :=
  (List.range (max 1 degree)).map seedPow

/-- Squared convergence tolerance: the source compares
`maxDelta < 1e-12` where `maxDelta` is a max of magnitudes; the
embedding compares the max of squared magnitudes against `(1e-12)²`
(see the file header). -/
def tolSq : ℚ := 1 / 10 ^ 24

/-- The iteration-budget constant `maxIter = 1000`. -/
def maxIter : ℕ := 1000

/-- The inner update for one root index `k` (lines 468–481): evaluate
the monic polynomial at `roots[k]`, divide by the product of
`roots[k] - roots[j]` over `j ≠ k` (a fold starting from `{1,0}`
skipping `j = k`), and subtract the correction from `roots[k]`.
Returns the updated list and the squared magnitude of the correction. -/
def dkUpdate (monic : List ComplexPoint) (degree : ℕ) (roots : List ComplexPoint)
    (k : ℕ) : List ComplexPoint × ℚ :=
  let gk := roots.getD k czero
  let fVal := evaluatePolynomial monic gk
  let denom := (List.range degree).foldl
    (fun acc j => if j ≠ k then multiply acc (subtract gk (roots.getD j czero)) else acc)
    cone
  let delta := divide fVal denom
  (roots.set k (subtract gk delta), magnitudeSq delta)

/-- One sweep of the Durand–Kerner loop (lines 466–482): update every
root index `k = 0 .. degree-1` in order, in place (later `k` see the
already-updated earlier roots), tracking the maximum squared correction
magnitude, which starts at `0` each sweep. -/
def dkSweep (monic : List ComplexPoint) (degree : ℕ)
    (roots : List ComplexPoint) : List ComplexPoint × ℚ :=
  (List.range degree).foldl
    (fun st k =>
      let upd := dkUpdate monic degree st.1 k
      (upd.1, max st.2 upd.2))
    (roots, 0)

/-- The outer iteration loop (lines 465–488), fuelled by the remaining
budget: run a sweep; if its maximum squared correction is below the
tolerance, stop with `converged = true`; when the budget runs out,
return the current guesses with `converged = false`. -/
def dkIter (monic : List ComplexPoint) (degree : ℕ) :
    ℕ → List ComplexPoint → List ComplexPoint × Bool
  | 0, roots => (roots, false)
  | fuel + 1, roots =>
    let swept := dkSweep monic degree roots
    if swept.2 < tolSq then (swept.1, true)
    else dkIter monic degree fuel swept.1

/-- The state after `n` unconditional sweeps from `roots` (used to
characterise `dkIter`, which follows exactly this sequence up to its
first converged sweep). -/
def dkSweepN (monic : List ComplexPoint) (degree : ℕ) :
    ℕ → List ComplexPoint → List ComplexPoint
  | 0, roots => roots
  | n + 1, roots => dkSweepN monic degree n (dkSweep monic degree roots).1

/-- The final cleanup (lines 490–494): snap any component of magnitude
below `1e-10` to exactly `0`, independently for `re` and `im`. -/
def snap (root : ComplexPoint) : ComplexPoint :=
  ⟨if |root.re| < 1 / 10 ^ 10 then 0 else root.re,
   if |root.im| < 1 / 10 ^ 10 then 0 else root.im⟩

/-- Function `durandKerner` from `src/math/polynomial.ts` (lines 447–497). -/
def durandKerner (coefficients : List ComplexPoint) : RootFindingResult :=
  let degree := coefficients.length - 1
  let leadCoeff := coefficients.getD degree czero
  let monic := coefficients.map fun c => divide c leadCoeff
  let initial := seedGuesses degree
  let final := dkIter monic degree maxIter initial
  ⟨final.1.map snap, final.2⟩

/-! ## Root-finding dispatch (`src/math/polynomial.ts`, lines 414–441)

`findRootsBuiltin` calls the external library function
`mathjs.polynomialRoot` on the real parts of the coefficients and maps
each raw root to a `ComplexPoint` (lines 431–436).  The library is not
part of this repository, so it is abstracted as a parameter
`pr : List ℚ → Option (List ComplexPoint)`: `pr` models
`polynomialRoot` composed with the per-root conversion, and `none`
models a throw (caught on line 438). -/

/-- Function `findRootsBuiltin` from `src/math/polynomial.ts` (lines 426–441):
on success wrap the converted roots with `converged = true`; on any
throw, fall back to `durandKerner` on the same coefficients. -/
def findRootsBuiltin (pr : List ℚ → Option (List ComplexPoint))
    (coefficients : List ComplexPoint) : RootFindingResult :=
  match pr (coefficients.map ComplexPoint.re) with
  | some roots => ⟨roots, true⟩
  | none => durandKerner coefficients

/-- Function `findRoots` from `src/math/polynomial.ts` (lines 414–423): use the
built-in closed-form solver only when the imaginary part of every coefficient
part has magnitude below `1e-10` and the degree is at most 3. -/
def findRoots (pr : List ℚ → Option (List ComplexPoint))
    (poly : Polynomial) : RootFindingResult :=
  if (∀ c ∈ poly.coefficients, |c.im| < 1 / 10 ^ 10) ∧ poly.degree ≤ 3 then
    findRootsBuiltin pr poly.coefficients
  else
    durandKerner poly.coefficients

/-! ## IEEE behaviour of `divide` at a zero denominator
(`src/math/complex.ts`, lines 18–24)

JavaScript float division never throws: with finite operands and a
zero divisor it yields `+Infinity`, `-Infinity`, or `NaN` (for `0/0`).
`FVal` models a float value as either a finite (exact) rational or one
of those three non-finite specials, and `fdiv` is IEEE division
restricted to finite operands, with the rounding of the nonzero-divisor
case idealised away (irrelevant here: the claim only concerns the
zero-denominator branch, where the result is exact). -/

/-- A float64 value: finite (modelled exactly) or one of the IEEE
non-finite specials. -/
inductive FVal where
  | fin (q : ℚ)
  | posInf
  | negInf
  | nan
  deriving DecidableEq, Repr

/-- Whether a float value is finite (`Number.isFinite`). -/
def FVal.isFinite : FVal → Bool
  | .fin _ => true
  | _ => false

/-- IEEE float division of finite operands: for a nonzero divisor the
finite quotient; for a zero divisor `±Infinity` by the sign of the
dividend, and `NaN` for `0/0`. -/
def fdiv (x y : ℚ) : FVal :=
  if y ≠ 0 then .fin (x / y)
  else if 0 < x then .posInf
  else if x < 0 then .negInf
  else .nan

/-- Function `divide` from `src/math/complex.ts` with its IEEE behaviour at a
zero denominator retained: the pair of the `re` and `im` components of
the result of `divide(a, b)`. -/
def divideF (a b : ComplexPoint) : FVal × FVal :=
  let denom := b.re * b.re + b.im * b.im
  (fdiv (a.re * b.re + a.im * b.im) denom,
   fdiv (a.im * b.re - a.re * b.im) denom)

/-! ## Domain-coloring rasterizer
(`src/visualization/domain-coloring.ts`, lines 94–113, and
`src/visualization/color-map.ts` for `LUT_SIZE`) -/

/-- Constant `LUT_SIZE` from `src/visualization/color-map.ts`. -/
def LUT_SIZE : ℤ := 1024

/-- Constant `MAX_ALPHA` from `src/visualization/domain-coloring.ts` (line 8). -/
def MAX_ALPHA : ℚ := 1

/-- The phase → LUT index mapping (lines 96–98):
`idx = ((theta + PI) * (LUT_SIZE / TWO_PI)) | 0`, then clamped into
`[0, LUT_SIZE)`.  The value of the float constant `Math.PI` is
abstracted as a parameter `piQ` (any positive rational, covering the
exact float64 value); `theta` is the phase.  The `|0` truncation
toward zero is embedded as `Int.floor`: the two agree on nonnegative
values, and for negative values both are clamped up to `0`, so the
clamped index is identical. -/
def lutIndex (piQ theta : ℚ) : ℤ :=
  let idx0 : ℤ := Int.floor ((theta + piQ) * ((LUT_SIZE : ℚ) / (2 * piQ)))
  let idx1 : ℤ := if idx0 ≥ LUT_SIZE then LUT_SIZE - 1 else idx0
  if idx1 < 0 then 0 else idx1

/-- Two LUT bucket indices are adjacent or identical on the circular
phase colormap (the raw hue `i / LUT_SIZE` is periodic with
period 1, so buckets `0` and `LUT_SIZE - 1` are neighbours). -/
def bucketsAdjacentOrEqual (i j : ℤ) : Prop :=
  i = j ∨ (i + 1) % LUT_SIZE = j % LUT_SIZE ∨ (j + 1) % LUT_SIZE = i % LUT_SIZE

instance (i j : ℤ) : Decidable (bucketsAdjacentOrEqual i j) := by
  unfold bucketsAdjacentOrEqual; infer_instance

/-- An RGBA pixel as written into the downsampled `ImageData` buffer:
three colour bytes and the alpha byte. -/
structure RGBA where
  r : ℕ
  g : ℕ
  b : ℕ
  a : ℤ
  deriving DecidableEq, Repr

/-- The per-pixel colour/alpha computation of the render loop
(lines 100–112), for one downsampled pixel: `lut` gives the RGB triple
at a LUT index (`PHASE_COLOR_LUT[lutOff..lutOff+2]`), `idx` is the LUT
index of the phase of the pixel, `dist` its distance from the raster
center, and `invFadeRadius` the precomputed `1 / fadeRadius`.
`radialFade = max(0, 1 - dist * invFadeRadius)`,
`alpha = radialFade * MAX_ALPHA`, and the alpha byte is
`(alpha * 255 + 0.5) | 0` as stored by the `Uint8ClampedArray`
(which clamps into `[0, 255]`); `alpha * 255 + 0.5` is nonnegative
here, so `|0` is `Int.floor`. -/
def renderPixel (lut : ℕ → ℕ × ℕ × ℕ) (idx : ℕ) (dist invFadeRadius : ℚ) : RGBA :=
  let radialFade := max 0 (1 - dist * invFadeRadius)
  let alpha := radialFade * MAX_ALPHA
  ⟨(lut idx).1, (lut idx).2.1, (lut idx).2.2,
   min 255 (max 0 (Int.floor (alpha * 255 + 1 / 2)))⟩

/-! ## Helper lemmas -/

lemma mulByLinear_length (root : ComplexPoint) (coeffs : List ComplexPoint)
    (h : coeffs ≠ []) : (mulByLinear root coeffs).length = coeffs.length + 1 := by
  have hlen : 1 ≤ coeffs.length := List.length_pos.mpr h
  simp [mulByLinear]
  omega

lemma mulByLinear_getD_zero (root : ComplexPoint) (coeffs : List ComplexPoint) :
    (mulByLinear root coeffs).getD 0 czero =
      multiply ⟨-root.re, -root.im⟩ (coeffs.getD 0 czero) := by
  simp [mulByLinear]

lemma mulByLinear_getD_mid (root : ComplexPoint) (coeffs : List ComplexPoint)
    (i : ℕ) (h1 : 1 ≤ i) (h2 : i ≤ coeffs.length - 1) :
    (mulByLinear root coeffs).getD i czero =
      add (coeffs.getD (i - 1) czero)
        (multiply ⟨-root.re, -root.im⟩ (coeffs.getD i czero)) := by
  obtain ⟨j, rfl⟩ : ∃ j, i = j + 1 := ⟨i - 1, by omega⟩
  have hj : j < coeffs.length - 1 := by omega
  simp only [mulByLinear, List.getD_eq_getElem?_getD, List.getElem?_append,
    List.length_cons, List.length_map, List.length_range]
  rw [if_pos (by omega : j + 1 < coeffs.length - 1 + 1), List.getElem?_cons_succ,
    List.getElem?_map, List.getElem?_range hj]
  simp

lemma mulByLinear_getD_last (root : ComplexPoint) (coeffs : List ComplexPoint) :
    (mulByLinear root coeffs).getD coeffs.length czero =
      coeffs.getD (coeffs.length - 1) czero := by
  rcases coeffs with _ | ⟨c, cs⟩
  · simp [mulByLinear, multiply, czero]
  · simp only [mulByLinear, List.length_cons, Nat.add_sub_cancel, List.getD_cons_succ,
      List.getD_eq_getElem?_getD, List.getElem?_append, List.length_map, List.length_range]
    rw [if_neg (by omega)]
    simp

lemma mulByLinear_getLast? (root : ComplexPoint) (coeffs : List ComplexPoint) :
    (mulByLinear root coeffs).getLast? = some (coeffs.getD (coeffs.length - 1) czero) := by
  simp only [mulByLinear]
  rw [show multiply ⟨-root.re, -root.im⟩ (coeffs.getD 0 czero) ::
        ((List.range (coeffs.length - 1)).map fun j =>
          add (coeffs.getD j czero)
            (multiply ⟨-root.re, -root.im⟩ (coeffs.getD (j + 1) czero)))
        ++ [coeffs.getD (coeffs.length - 1) czero] =
      (multiply ⟨-root.re, -root.im⟩ (coeffs.getD 0 czero) ::
        ((List.range (coeffs.length - 1)).map fun j =>
          add (coeffs.getD j czero)
            (multiply ⟨-root.re, -root.im⟩ (coeffs.getD (j + 1) czero))))
        ++ [coeffs.getD (coeffs.length - 1) czero] from rfl]
  rw [List.getLast?_concat]

lemma mulByLinear_ne_nil (root : ComplexPoint) (coeffs : List ComplexPoint) :
    mulByLinear root coeffs ≠ [] := by
  simp [mulByLinear]

lemma rootsToCoefficients_foldl_invariant (roots : List ComplexPoint) :
    ∀ acc : List ComplexPoint, acc ≠ [] →
      (roots.foldl (fun coeffs root => mulByLinear root coeffs) acc).length
          = acc.length + roots.length ∧
      (roots.foldl (fun coeffs root => mulByLinear root coeffs) acc).getLast?
          = acc.getLast? := by
  induction roots with
  | nil => intro acc _; simp
  | cons r rs ih =>
    intro acc hacc
    have hne := mulByLinear_ne_nil r acc
    obtain ⟨hl, hg⟩ := ih (mulByLinear r acc) hne
    constructor
    · simp only [List.foldl_cons, hl, mulByLinear_length r acc hacc, List.length_cons]
      omega
    · simp only [List.foldl_cons, hg, mulByLinear_getLast? r acc]
      rcases List.exists_cons_of_ne_nil hacc with ⟨a, as, rfl⟩
      rw [List.getLast?_eq_getLast _ (by simp), List.getLast_eq_getElem]
      simp [List.getD_eq_getElem?_getD, List.getElem?_eq_getElem]

/-! ## Claim theorems -/

/-- **C5.** `rootsToCoefficients(roots, leadingCoeff)` starts from the
one-element accumulator `[leadingCoeff]`; for each root `r` in sequence
order it replaces the `n`-term accumulator `c0..c_{n-1}` by the
`(n+1)`-term list with `new[0] = -r*c0`,
`new[i] = c[i-1] - r*c[i]` for `1 ≤ i ≤ n-1`, and `new[n] = c[n-1]`;
it returns exactly `[leadingCoeff]` on an empty root list, and
`rootsToCoefficients([{1,0},{-1,0}], {1,0}) = [{-1,0},{0,0},{1,0}]`,
the coefficients of `z² - 1`. -/
theorem rootsToCoefficients_recurrence :
    (∀ L : ComplexPoint, rootsToCoefficients [] L = [L]) ∧
    (rootsToCoefficients [⟨1, 0⟩, ⟨-1, 0⟩] ⟨1, 0⟩ = [⟨-1, 0⟩, ⟨0, 0⟩, ⟨1, 0⟩]) ∧
    (∀ (roots : List ComplexPoint) (L r : ComplexPoint),
      rootsToCoefficients (roots ++ [r]) L = mulByLinear r (rootsToCoefficients roots L)) ∧
    (∀ (r : ComplexPoint) (cs : List ComplexPoint), cs ≠ [] →
      (mulByLinear r cs).length = cs.length + 1 ∧
      (mulByLinear r cs).getD 0 czero =
        subtract czero (multiply r (cs.getD 0 czero)) ∧
      (∀ i, 1 ≤ i → i ≤ cs.length - 1 →
        (mulByLinear r cs).getD i czero =
          subtract (cs.getD (i - 1) czero) (multiply r (cs.getD i czero))) ∧
      (mulByLinear r cs).getD cs.length czero = cs.getD (cs.length - 1) czero) := by
  refine ⟨fun L => rfl, by norm_num [rootsToCoefficients, mulByLinear, multiply,
    add, czero, List.range_succ], fun roots L r => ?_, fun r cs hcs => ?_⟩
  · simp [rootsToCoefficients, List.foldl_append]
  · refine ⟨mulByLinear_length r cs hcs, ?_, fun i h1 h2 => ?_,
      mulByLinear_getD_last r cs⟩
    · rw [mulByLinear_getD_zero]
      rcases cs.getD 0 czero with ⟨x, y⟩
      show ComplexPoint.mk _ _ = ComplexPoint.mk _ _
      simp [multiply, subtract, czero]
      constructor <;> ring
    · rw [mulByLinear_getD_mid r cs i h1 h2]
      rcases cs.getD (i - 1) czero with ⟨x, y⟩
      rcases cs.getD i czero with ⟨u, v⟩
      show ComplexPoint.mk _ _ = ComplexPoint.mk _ _
      simp [multiply, subtract, add]
      constructor <;> ring

/-- **C10.** For every root list and every leading coefficient,
`rootsToCoefficients` returns a list of length `roots.length + 1` whose
last element is exactly `leadingCoeff`, component for component: the
leading coefficient is carried through every linear-factor
multiplication untouched. -/
theorem rootsToCoefficients_length_and_leading :
    ∀ (roots : List ComplexPoint) (L : ComplexPoint),
      (rootsToCoefficients roots L).length = roots.length + 1 ∧
      (rootsToCoefficients roots L).getLast? = some L := by
  intro roots L
  obtain ⟨hl, hg⟩ := rootsToCoefficients_foldl_invariant roots [L] (by simp)
  constructor
  · simp only [rootsToCoefficients]
    rw [hl]; simp [Nat.add_comm]
  · simp only [rootsToCoefficients]
    rw [hg]; simp

/-- Witness for `rootsToCoefficients_recurrence`: the recurrence
conjunct applied to the concrete accumulator `[{1,0},{3,0}]` and root
`{2,0}`. -/
theorem rootsToCoefficients_recurrence_witness :
    (mulByLinear ⟨2, 0⟩ [⟨1, 0⟩, ⟨3, 0⟩] : List ComplexPoint).length = 3 ∧
    (mulByLinear ⟨2, 0⟩ [⟨1, 0⟩, ⟨3, 0⟩]).getD 1 czero =
      subtract ⟨1, 0⟩ (multiply ⟨2, 0⟩ ⟨3, 0⟩) := by
  have h := rootsToCoefficients_recurrence.2.2.2 ⟨2, 0⟩ [⟨1, 0⟩, ⟨3, 0⟩] (by simp)
  refine ⟨by simpa using h.1, ?_⟩
  have hmid := h.2.2.1 1 le_rfl (by norm_num)
  simpa using hmid

/-- **C6.** When the squared magnitude of the divisor is zero,
`divide(a, b)` does not produce an ordinary finite complex value: under
IEEE float64 semantics both numerators are exactly zero as well, so
both components of the result are `NaN` (`0/0`), i.e. the division
surfaces as non-finite propagation rather than a finite result. -/
theorem divide_zero_denominator_nonfinite :
    ∀ a b : ComplexPoint, b.re * b.re + b.im * b.im = 0 →
      (divideF a b).1 = FVal.nan ∧ (divideF a b).2 = FVal.nan ∧
      (divideF a b).1.isFinite = false ∧ (divideF a b).2.isFinite = false := by
  intro a b h
  obtain ⟨hre, him⟩ : b.re = 0 ∧ b.im = 0 := by
    constructor <;> nlinarith [mul_self_nonneg b.re, mul_self_nonneg b.im]
  have h1 : a.re * b.re + a.im * b.im = 0 := by rw [hre, him]; ring
  have h2 : a.im * b.re - a.re * b.im = 0 := by rw [hre, him]; ring
  simp [divideF, fdiv, h, h1, h2, FVal.isFinite]

/-- Witness for `divide_zero_denominator_nonfinite` at `a = 1 + 2i`,
`b = 0`. -/
theorem divide_zero_denominator_nonfinite_witness :
    (divideF ⟨1, 2⟩ ⟨0, 0⟩).1 = FVal.nan ∧ (divideF ⟨1, 2⟩ ⟨0, 0⟩).2 = FVal.nan := by
  have h := divide_zero_denominator_nonfinite ⟨1, 2⟩ ⟨0, 0⟩ (by norm_num)
  exact ⟨h.1, h.2.1⟩

/-- **C8.** For every positive value of the float constant `PI`, the
LUT index mapping sends phase `-π` to bucket `0` and phase `π` to
bucket `LUT_SIZE - 1 = 1023`, and those two buckets are adjacent on the
circular 1024-bucket phase colormap (bucket `1023 + 1 ≡ 0`), so the
branch cut produces adjacent-or-identical buckets. -/
theorem lutIndex_branch_cut :
    ∀ piQ : ℚ, 0 < piQ →
      lutIndex piQ (-piQ) = 0 ∧ lutIndex piQ piQ = LUT_SIZE - 1 ∧
      bucketsAdjacentOrEqual (lutIndex piQ (-piQ)) (lutIndex piQ piQ) := by
  intro piQ hpi
  have hne : (2 : ℚ) * piQ ≠ 0 := by positivity
  have hlow : lutIndex piQ (-piQ) = 0 := by
    simp [lutIndex, LUT_SIZE]
  have hhi : lutIndex piQ piQ = LUT_SIZE - 1 := by
    have hval : (piQ + piQ) * ((1024 : ℚ) / (2 * piQ)) = 1024 := by
      field_simp
      ring
    simp only [lutIndex, LUT_SIZE, Int.cast_ofNat, hval]
    norm_num
  refine ⟨hlow, hhi, ?_⟩
  rw [hlow, hhi]
  right; right
  decide

/-- Witness for `lutIndex_branch_cut` at the exact float64 value of
`Math.PI`, `884279719003555 / 2^48`. -/
theorem lutIndex_branch_cut_witness :
    lutIndex (884279719003555 / 281474976710656) (-(884279719003555 / 281474976710656)) = 0 ∧
    lutIndex (884279719003555 / 281474976710656) (884279719003555 / 281474976710656) = 1023 := by
  have h := lutIndex_branch_cut (884279719003555 / 281474976710656) (by norm_num)
  exact ⟨h.1, h.2.1⟩

/-- **C9.** For every rendered downsampled pixel: the alpha byte equals
`⌊alpha * 255 + 0.5⌋` clamped into `[0, 255]` with
`alpha = max(0, 1 - dist / fadeRadius)`; the alpha is monotonically
non-increasing in the distance from the raster center; it is `0` at or
beyond the fade radius; and the RGB bytes are copied unchanged from the
LUT entry. -/
theorem renderPixel_alpha_fade :
    ∀ (lut : ℕ → ℕ × ℕ × ℕ) (idx : ℕ) (dist fadeRadius : ℚ), 0 < fadeRadius →
      ((renderPixel lut idx dist (1 / fadeRadius)).a =
        min 255 (max 0 (Int.floor (max 0 (1 - dist / fadeRadius) * 255 + 1 / 2))) ∧
      (∀ d₁ d₂ : ℚ, d₁ ≤ d₂ →
        (renderPixel lut idx d₂ (1 / fadeRadius)).a ≤
          (renderPixel lut idx d₁ (1 / fadeRadius)).a) ∧
      (fadeRadius ≤ dist → (renderPixel lut idx dist (1 / fadeRadius)).a = 0) ∧
      (renderPixel lut idx dist (1 / fadeRadius)).r = (lut idx).1 ∧
      (renderPixel lut idx dist (1 / fadeRadius)).g = (lut idx).2.1 ∧
      (renderPixel lut idx dist (1 / fadeRadius)).b = (lut idx).2.2) := by
  intro lut idx dist fadeRadius hpos
  have hinv : 0 ≤ 1 / fadeRadius := by positivity
  refine ⟨?_, fun d₁ d₂ hd => ?_, fun hfar => ?_, rfl, rfl, rfl⟩
  · simp only [renderPixel, MAX_ALPHA, mul_one, div_eq_mul_inv, one_div, one_mul]
  · simp only [renderPixel, MAX_ALPHA, mul_one]
    have hmono : max 0 (1 - d₂ * (1 / fadeRadius)) ≤ max 0 (1 - d₁ * (1 / fadeRadius)) := by
      apply max_le_max le_rfl
      have := mul_le_mul_of_nonneg_right hd hinv
      linarith
    have hfl : Int.floor (max 0 (1 - d₂ * (1 / fadeRadius)) * 255 + 1 / 2) ≤
        Int.floor (max 0 (1 - d₁ * (1 / fadeRadius)) * 255 + 1 / 2) := by
      apply Int.floor_le_floor
      nlinarith
    exact min_le_min le_rfl (max_le_max le_rfl hfl)
  · simp only [renderPixel, MAX_ALPHA, mul_one]
    have hz : max 0 (1 - dist * (1 / fadeRadius)) = 0 := by
      apply max_eq_left
      rw [mul_one_div]
      have : 1 ≤ dist / fadeRadius := (one_le_div hpos).mpr hfar
      linarith
    rw [hz]
    norm_num

/-- Witness for `renderPixel_alpha_fade` at a constant LUT, pixel
distance `3`, fade radius `2` (beyond the radius, so alpha `0`). -/
theorem renderPixel_alpha_fade_witness :
    (renderPixel (fun _ => (10, 20, 30)) 0 3 (1 / 2)).a = 0 ∧
    (renderPixel (fun _ => (10, 20, 30)) 0 3 (1 / 2)).r = 10 := by
  have h := renderPixel_alpha_fade (fun _ => (10, 20, 30)) 0 3 2 (by norm_num)
  exact ⟨h.2.2.1 (by norm_num), h.2.2.2.1⟩

/-! ## Length preservation through the Durand–Kerner loop -/

lemma dkUpdate_fst_length (monic : List ComplexPoint) (degree : ℕ)
    (roots : List ComplexPoint) (k : ℕ) :
    (dkUpdate monic degree roots k).1.length = roots.length := by
  simp [dkUpdate]

lemma dkFold_fst_length (monic : List ComplexPoint) (degree : ℕ) :
    ∀ (l : List ℕ) (st : List ComplexPoint × ℚ),
      (l.foldl (fun st k =>
        let upd := dkUpdate monic degree st.1 k
        (upd.1, max st.2 upd.2)) st).1.length = st.1.length := by
  intro l
  induction l with
  | nil => intro st; rfl
  | cons a as ih =>
    intro st
    simp only [List.foldl_cons]
    rw [ih]
    exact dkUpdate_fst_length monic degree st.1 a

lemma dkSweep_fst_length (monic : List ComplexPoint) (degree : ℕ)
    (roots : List ComplexPoint) :
    (dkSweep monic degree roots).1.length = roots.length :=
  dkFold_fst_length monic degree (List.range degree) (roots, 0)

lemma dkIter_fst_length (monic : List ComplexPoint) (degree fuel : ℕ)
    (roots : List ComplexPoint) :
    (dkIter monic degree fuel roots).1.length = roots.length := by
  induction fuel generalizing roots with
  | zero => rfl
  | succ n ih =>
    show (if (dkSweep monic degree roots).2 < tolSq
        then ((dkSweep monic degree roots).1, true)
        else dkIter monic degree n (dkSweep monic degree roots).1).1.length = _
    split
    · exact dkSweep_fst_length monic degree roots
    · rw [ih (dkSweep monic degree roots).1]
      exact dkSweep_fst_length monic degree roots

lemma durandKerner_roots_length (coefficients : List ComplexPoint) :
    (durandKerner coefficients).roots.length = max 1 (coefficients.length - 1) := by
  simp [durandKerner, dkIter_fst_length, seedGuesses]

/-! ## Dispatch and root-count theorems -/

/-- **C2.** `findRoots` attempts the closed-form solver exactly when
every imaginary part has magnitude below `1e-10` and the degree is at
most 3; if the solver throws (modelled by `pr` returning `none`) the
result is the Durand–Kerner result on the same coefficients; on
success its roots are returned with `converged = true`; otherwise
(degree at least 4 or a genuinely complex coefficient) Durand–Kerner
runs directly. -/
theorem findRoots_dispatch :
    ∀ (pr : List ℚ → Option (List ComplexPoint)) (poly : Polynomial),
      ((∀ c ∈ poly.coefficients, |c.im| < 1 / 10 ^ 10) → poly.degree ≤ 3 →
        (findRoots pr poly = findRootsBuiltin pr poly.coefficients ∧
         (∀ rs, pr (poly.coefficients.map ComplexPoint.re) = some rs →
            findRoots pr poly = ⟨rs, true⟩) ∧
         (pr (poly.coefficients.map ComplexPoint.re) = none →
            findRoots pr poly = durandKerner poly.coefficients))) ∧
      (¬ ((∀ c ∈ poly.coefficients, |c.im| < 1 / 10 ^ 10) ∧ poly.degree ≤ 3) →
        findRoots pr poly = durandKerner poly.coefficients) := by
  intro pr poly
  constructor
  · intro hreal hdeg
    have hcond : (∀ c ∈ poly.coefficients, |c.im| < 1 / 10 ^ 10) ∧ poly.degree ≤ 3 :=
      ⟨hreal, hdeg⟩
    have hfr : findRoots pr poly = findRootsBuiltin pr poly.coefficients := by
      simp only [findRoots, if_pos hcond]
    refine ⟨hfr, fun rs hrs => ?_, fun hnone => ?_⟩
    · rw [hfr]
      simp only [findRootsBuiltin, hrs]
    · rw [hfr]
      simp only [findRootsBuiltin, hnone]
  · intro hcond
    simp only [findRoots, if_neg hcond]

/-- Witness for `findRoots_dispatch`: for the all-real degree-1
polynomial `z - 1` with a throwing solver, `findRoots` falls back to
Durand–Kerner; with a succeeding solver it returns its roots with
`converged = true`. -/
theorem findRoots_dispatch_witness :
    findRoots (fun _ => none) ⟨[⟨-1, 0⟩, ⟨1, 0⟩], 1⟩ = durandKerner [⟨-1, 0⟩, ⟨1, 0⟩] ∧
    findRoots (fun _ => some [⟨1, 0⟩]) ⟨[⟨-1, 0⟩, ⟨1, 0⟩], 1⟩ = ⟨[⟨1, 0⟩], true⟩ := by
  have hreal : ∀ c ∈ (Polynomial.mk [⟨-1, 0⟩, ⟨1, 0⟩] 1).coefficients,
      |c.im| < (1 : ℚ) / 10 ^ 10 := by
    intro c hc
    simp only [List.mem_cons, List.not_mem_nil, or_false] at hc
    rcases hc with rfl | rfl <;> norm_num
  have h1 := (findRoots_dispatch (fun _ => none) ⟨[⟨-1, 0⟩, ⟨1, 0⟩], 1⟩).1
    hreal (by norm_num)
  have h2 := (findRoots_dispatch (fun _ => some [⟨1, 0⟩]) ⟨[⟨-1, 0⟩, ⟨1, 0⟩], 1⟩).1
    hreal (by norm_num)
  exact ⟨h1.2.2 rfl, h2.2.1 [⟨1, 0⟩] rfl⟩

/-- **C4.** For a well-formed polynomial of degree at least 1 (with
`degree = coefficients.length - 1` as maintained by the parser), and
any closed-form solver that returns `degree` roots when it succeeds
(the documented contract of `mathjs.polynomialRoot`), the root set
returned by `findRoots` has exactly `degree` elements, on both the
closed-form path and the Durand–Kerner path. -/
theorem findRoots_root_count :
    ∀ (pr : List ℚ → Option (List ComplexPoint)) (poly : Polynomial),
      poly.degree = poly.coefficients.length - 1 →
      1 ≤ poly.degree →
      (∀ rs, pr (poly.coefficients.map ComplexPoint.re) = some rs →
        rs.length = poly.degree) →
      (findRoots pr poly).roots.length = poly.degree := by
  intro pr poly hwf hdeg hpr
  have hdk : (durandKerner poly.coefficients).roots.length = poly.degree := by
    rw [durandKerner_roots_length, ← hwf]
    omega
  by_cases hcond : (∀ c ∈ poly.coefficients, |c.im| < 1 / 10 ^ 10) ∧ poly.degree ≤ 3
  · have hfr : findRoots pr poly = findRootsBuiltin pr poly.coefficients := by
      simp only [findRoots, if_pos hcond]
    rw [hfr]
    rcases hopt : pr (poly.coefficients.map ComplexPoint.re) with _ | rs
    · simp only [findRootsBuiltin, hopt]
      exact hdk
    · simp only [findRootsBuiltin, hopt]
      exact hpr rs hopt
  · simp only [findRoots, if_neg hcond]
    exact hdk

/-- Witness for `findRoots_root_count`: the degree-1 polynomial
`z - 1` with a throwing solver yields exactly one root. -/
theorem findRoots_root_count_witness :
    (findRoots (fun _ => none) ⟨[⟨-1, 0⟩, ⟨1, 0⟩], 1⟩).roots.length = 1 := by
  exact findRoots_root_count (fun _ => none) ⟨[⟨-1, 0⟩, ⟨1, 0⟩], 1⟩ rfl
    (by norm_num) (fun rs h => by cases h)

/-! ## Unfolding and characterization lemmas for the iteration loop -/

lemma dkIter_succ (monic : List ComplexPoint) (degree fuel : ℕ)
    (roots : List ComplexPoint) :
    dkIter monic degree (fuel + 1) roots =
      if (dkSweep monic degree roots).2 < tolSq then ((dkSweep monic degree roots).1, true)
      else dkIter monic degree fuel (dkSweep monic degree roots).1 := rfl

lemma seedGuesses_getD (degree k : ℕ) (hk : k < max 1 degree) :
    (seedGuesses degree).getD k czero = seedPow k := by
  simp [seedGuesses, List.getD_eq_getElem?_getD, List.getElem?_map, List.getElem?_range hk]

lemma foldl_multiply_if (gk : ComplexPoint) (roots : List ComplexPoint) (k : ℕ) :
    ∀ (l : List ℕ) (acc : ComplexPoint),
      l.foldl (fun acc j =>
          if j ≠ k then multiply acc (subtract gk (roots.getD j czero)) else acc) acc
        = (l.filter (fun j => j ≠ k)).foldl
            (fun acc j => multiply acc (subtract gk (roots.getD j czero))) acc := by
  intro l
  induction l with
  | nil => intro acc; rfl
  | cons a as ih =>
    intro acc
    by_cases ha : a = k
    · subst ha
      have h1 : ¬(a ≠ a) := by simp
      simp only [List.foldl_cons, if_neg h1, List.filter_cons]
      rw [if_neg (by simp)]
      exact ih acc
    · have h1 : a ≠ k := ha
      simp only [List.foldl_cons, if_pos h1, List.filter_cons]
      rw [if_pos (by simp [h1])]
      simp only [List.foldl_cons]
      exact ih _

lemma dkIter_characterization (monic : List ComplexPoint) (degree : ℕ) :
    ∀ (fuel : ℕ) (roots : List ComplexPoint),
      (∃ m, m ≤ fuel ∧
        (dkIter monic degree fuel roots).1 = dkSweepN monic degree m roots) ∧
      ((dkIter monic degree fuel roots).2 = true ↔
        ∃ n, n < fuel ∧
          (dkSweep monic degree (dkSweepN monic degree n roots)).2 < tolSq) := by
  intro fuel
  induction fuel with
  | zero =>
    intro roots
    refine ⟨⟨0, le_rfl, rfl⟩, ?_⟩
    constructor
    · intro h; exact absurd h (by simp [dkIter])
    · rintro ⟨n, hn, _⟩; omega
  | succ f ih =>
    intro roots
    by_cases h : (dkSweep monic degree roots).2 < tolSq
    · refine ⟨⟨1, by omega, by rw [dkIter_succ, if_pos h]; rfl⟩, ?_⟩
      rw [dkIter_succ, if_pos h]
      constructor
      · intro _
        exact ⟨0, by omega, by simpa [dkSweepN] using h⟩
      · intro _; rfl
    · obtain ⟨⟨m, hm, heq⟩, hiff⟩ := ih (dkSweep monic degree roots).1
      refine ⟨⟨m + 1, by omega, by rw [dkIter_succ, if_neg h]; exact heq⟩, ?_⟩
      rw [dkIter_succ, if_neg h, hiff]
      constructor
      · rintro ⟨n, hn, hlt⟩
        exact ⟨n + 1, by omega, by simpa [dkSweepN] using hlt⟩
      · rintro ⟨n, hn, hlt⟩
        match n with
        | 0 => exact absurd (by simpa [dkSweepN] using hlt) h
        | Nat.succ n => exact ⟨n, by omega, by simpa [dkSweepN] using hlt⟩

/-- The monic coefficient list computed on line 452 of
`src/math/polynomial.ts`: every coefficient divided by the leading
coefficient `coefficients[degree]`. -/
def dkMonic (coefficients : List ComplexPoint) : List ComplexPoint :=
  coefficients.map fun c =>
    divide c (coefficients.getD (coefficients.length - 1) czero)

/-! ## Durand–Kerner claim theorems -/

/-- **C7.** After the Durand–Kerner loop terminates (by convergence or
budget exhaustion), every returned root has each component either
exactly `0` or of magnitude at least `1e-10`: any smaller component is
snapped to exactly `0` before the result is returned. -/
theorem durandKerner_snap_postcondition :
    ∀ (coefficients : List ComplexPoint) (root : ComplexPoint),
      root ∈ (durandKerner coefficients).roots →
      (root.re = 0 ∨ 1 / 10 ^ 10 ≤ |root.re|) ∧
      (root.im = 0 ∨ 1 / 10 ^ 10 ≤ |root.im|) := by
  intro coeffs root hmem
  simp only [durandKerner, List.mem_map] at hmem
  obtain ⟨r, _, rfl⟩ := hmem
  constructor
  · rcases lt_or_le |r.re| (1 / 10 ^ 10) with h | h
    · left
      show (if |r.re| < 1 / 10 ^ 10 then (0 : ℚ) else r.re) = 0
      rw [if_pos h]
    · right
      have hre : (snap r).re = r.re := by
        show (if |r.re| < 1 / 10 ^ 10 then (0 : ℚ) else r.re) = r.re
        rw [if_neg (not_lt.mpr h)]
      rw [hre]; exact h
  · rcases lt_or_le |r.im| (1 / 10 ^ 10) with h | h
    · left
      show (if |r.im| < 1 / 10 ^ 10 then (0 : ℚ) else r.im) = 0
      rw [if_pos h]
    · right
      have him : (snap r).im = r.im := by
        show (if |r.im| < 1 / 10 ^ 10 then (0 : ℚ) else r.im) = r.im
        rw [if_neg (not_lt.mpr h)]
      rw [him]; exact h

/-- The full `durandKerner` run on the coefficients of `z - 1`:
the single seed `{1,0}` is already the exact root, so the first sweep
has correction `0` and the method converges at once. -/
lemma durandKerner_z_sub_one :
    durandKerner [⟨-1, 0⟩, ⟨1, 0⟩] = ⟨[⟨1, 0⟩], true⟩ := by
  have hsweep : dkSweep [⟨-1, 0⟩, ⟨1, 0⟩] 1 [⟨1, 0⟩] = ([⟨1, 0⟩], 0) := by
    norm_num [dkSweep, dkUpdate, evaluatePolynomial, multiply, add, subtract, divide,
      magnitudeSq, czero, cone, List.range_succ]
  have hiter : dkIter [⟨-1, 0⟩, ⟨1, 0⟩] 1 maxIter [⟨1, 0⟩] = ([⟨1, 0⟩], true) := by
    rw [show maxIter = 999 + 1 from rfl, dkIter_succ, hsweep]
    norm_num [tolSq]
  simp only [durandKerner]
  norm_num [divide, czero, cone, seedGuesses, seedPow, List.range_succ]
  rw [hiter]
  norm_num [snap]

/-- Witness for `durandKerner_snap_postcondition`: the root `{1,0}`
returned for `z - 1` satisfies the snapped-component postcondition. -/
theorem durandKerner_snap_postcondition_witness :
    (⟨1, 0⟩ : ComplexPoint) ∈ (durandKerner [⟨-1, 0⟩, ⟨1, 0⟩]).roots ∧
    (((1 : ℚ) = 0 ∨ 1 / 10 ^ 10 ≤ |(1 : ℚ)|) ∧
     ((0 : ℚ) = 0 ∨ 1 / 10 ^ 10 ≤ |(0 : ℚ)|)) := by
  have hmem : (⟨1, 0⟩ : ComplexPoint) ∈ (durandKerner [⟨-1, 0⟩, ⟨1, 0⟩]).roots := by
    rw [durandKerner_z_sub_one]; simp
  exact ⟨hmem, durandKerner_snap_postcondition [⟨-1, 0⟩, ⟨1, 0⟩] ⟨1, 0⟩ hmem⟩

/-- **C3.** The Durand–Kerner algorithm: it first divides every
coefficient by the leading coefficient (monic normalization), seeds
`guess[0] = 1` and `guess[k] = guess[k-1] * (0.4 + 0.9i)`, runs at most
1000 sweeps in which each guess `k` is decreased by `p(guess[k])`
divided by the product of `guess[k] - guess[j]` over `j ≠ k`, and sets
`converged = true` exactly when some sweep of the run has maximum
correction magnitude below `1e-12` (squared magnitudes below
`1e-24` in the embedding) within the budget; otherwise the current
guesses are still returned with `converged = false` and no error. -/
theorem durandKerner_steps :
    ∀ coefficients : List ComplexPoint,
      (durandKerner coefficients =
        ⟨(dkIter (dkMonic coefficients) (coefficients.length - 1) maxIter
            (seedGuesses (coefficients.length - 1))).1.map snap,
         (dkIter (dkMonic coefficients) (coefficients.length - 1) maxIter
            (seedGuesses (coefficients.length - 1))).2⟩) ∧
      (∀ i, i < coefficients.length →
        (dkMonic coefficients).getD i czero =
          divide (coefficients.getD i czero)
            (coefficients.getD (coefficients.length - 1) czero)) ∧
      ((seedGuesses (coefficients.length - 1)).getD 0 czero = cone ∧
       (∀ k, 0 < k → k < (seedGuesses (coefficients.length - 1)).length →
         (seedGuesses (coefficients.length - 1)).getD k czero =
           multiply ((seedGuesses (coefficients.length - 1)).getD (k - 1) czero) seedC)) ∧
      (∀ (roots : List ComplexPoint) (k : ℕ),
        dkUpdate (dkMonic coefficients) (coefficients.length - 1) roots k =
          (roots.set k (subtract (roots.getD k czero)
            (divide (evaluatePolynomial (dkMonic coefficients) (roots.getD k czero))
              (((List.range (coefficients.length - 1)).filter (fun j => j ≠ k)).foldl
                (fun acc j =>
                  multiply acc (subtract (roots.getD k czero) (roots.getD j czero)))
                cone))),
           magnitudeSq (divide (evaluatePolynomial (dkMonic coefficients) (roots.getD k czero))
              (((List.range (coefficients.length - 1)).filter (fun j => j ≠ k)).foldl
                (fun acc j =>
                  multiply acc (subtract (roots.getD k czero) (roots.getD j czero)))
                cone)))) ∧
      (∃ m, m ≤ maxIter ∧
        (durandKerner coefficients).roots =
          (dkSweepN (dkMonic coefficients) (coefficients.length - 1) m
            (seedGuesses (coefficients.length - 1))).map snap) ∧
      ((durandKerner coefficients).converged = true ↔
        ∃ n, n < maxIter ∧
          (dkSweep (dkMonic coefficients) (coefficients.length - 1)
            (dkSweepN (dkMonic coefficients) (coefficients.length - 1) n
              (seedGuesses (coefficients.length - 1)))).2 < tolSq) := by
  intro coeffs
  obtain ⟨⟨m, hm, hroots⟩, hconv⟩ :=
    dkIter_characterization (dkMonic coeffs) (coeffs.length - 1) maxIter
      (seedGuesses (coeffs.length - 1))
  refine ⟨rfl, fun i hi => ?_, ⟨?_, fun k hk hklen => ?_⟩, fun roots k => ?_,
    ⟨m, hm, ?_⟩, ?_⟩
  · simp [dkMonic, List.getD_eq_getElem?_getD, List.getElem?_map,
      List.getElem?_eq_getElem hi]
  · exact seedGuesses_getD (coeffs.length - 1) 0 (by omega)
  · have hlen : (seedGuesses (coeffs.length - 1)).length = max 1 (coeffs.length - 1) := by
      simp [seedGuesses]
    rw [hlen] at hklen
    obtain ⟨j, rfl⟩ : ∃ j, k = j + 1 := ⟨k - 1, by omega⟩
    rw [seedGuesses_getD _ _ hklen, seedGuesses_getD _ _ (by omega)]
    simp [seedPow]
  · simp only [dkUpdate]
    rw [foldl_multiply_if]
  · show (dkIter (dkMonic coeffs) (coeffs.length - 1) maxIter
        (seedGuesses (coeffs.length - 1))).1.map snap = _
    rw [hroots]
  · show (dkIter (dkMonic coeffs) (coeffs.length - 1) maxIter
        (seedGuesses (coeffs.length - 1))).2 = true ↔ _
    exact hconv

/-- Witness for `durandKerner_steps`: the seeding conjunct evaluated
for a degree-2 coefficient list. -/
theorem durandKerner_steps_witness :
    (seedGuesses 2).getD 0 czero = cone ∧
    (seedGuesses 2).getD 1 czero = multiply ((seedGuesses 2).getD 0 czero) seedC := by
  have h := durandKerner_steps [⟨-1, 0⟩, ⟨0, 0⟩, ⟨1, 0⟩]
  exact ⟨h.2.2.1.1, h.2.2.1.2 1 (by norm_num) (by norm_num [seedGuesses])⟩

end Cplxviz
